import Mathlib

/-!
# Verification of the ParyantaOS exokernel core

Shallow embedding, in Lean 4, of the exokernel's capability manager
(`src/caps/mod.rs`, `src/caps/manager.rs`), object store
(`src/objstore/mod.rs`, `src/objstore/store.rs`, `src/objstore/gated.rs`)
and cooperative round-robin scheduler (`src/task/mod.rs`,
`src/task/scheduler.rs`), together with proofs of the specified
properties.

Modelling conventions:
* Rust `u64`/`u32` values become `Nat`.  The only arithmetic the code
  performs on machine integers is the FNV-1a hash (modelled with an
  explicit `% 2^64`) and the monotone id counters (a `u64` `fetch_add`
  that could only wrap after `2^64` mints, far beyond any reachable
  state, so the counters are modelled as plain `Nat`).
* The Rust `BTreeMap`s are modelled as association lists with
  first-match lookup; the reachable states keep their keys nodup, so
  lookup/insert/erase agree with map semantics.  The `Option<BTreeMap>`
  lazy-init wrapper in the Rust code treats `None` exactly like an
  empty map in every operation, so the embedding uses the map directly.
* Fallible operations return `Except`; operations that mutate the
  global registries take and return an explicit state.
-/

namespace Exo

/-! ## Association-list helpers (model of `BTreeMap` lookup/insert/remove) -/

/-- First-match lookup, the model of `BTreeMap::get`. -/
def lookupA {κ α : Type} [DecidableEq κ] : List (κ × α) → κ → Option α
  | [], _ => none
  | (k', v) :: r, k => if k' = k then some v else lookupA r k

/-- Insert-or-replace, the model of `BTreeMap::insert`. -/
def insertA {κ α : Type} [DecidableEq κ] : List (κ × α) → κ → α → List (κ × α)
  | [], k, v => [(k, v)]
  | (k', v') :: r, k, v =>
      if k' = k then (k, v) :: r else (k', v') :: insertA r k v

/-- Remove the (first) entry with the given key, the model of `BTreeMap::remove`. -/
def eraseA {κ α : Type} [DecidableEq κ] : List (κ × α) → κ → List (κ × α)
  | [], _ => []
  | (k', v') :: r, k => if k' = k then r else (k', v') :: eraseA r k

/-- Model of `BTreeMap::contains_key`. -/
def containsA {κ α : Type} [DecidableEq κ] (l : List (κ × α)) (k : κ) : Bool :=
  (lookupA l k).isSome

theorem lookupA_insertA {κ α : Type} [DecidableEq κ]
    (l : List (κ × α)) (k k' : κ) (v : α) :
    lookupA (insertA l k v) k' = if k = k' then some v else lookupA l k' := by
  induction l with
  | nil => simp [insertA, lookupA]
  | cons hd tl ih =>
      obtain ⟨k₀, v₀⟩ := hd
      by_cases h₀ : k₀ = k
      · subst h₀
        by_cases h₁ : k₀ = k'
        · subst h₁; simp [insertA, lookupA]
        · simp [insertA, lookupA, h₁]
      · by_cases h₁ : k₀ = k'
        · subst h₁
          simp [insertA, lookupA, h₀, Ne.symm h₀]
        · simp [insertA, lookupA, h₀, h₁, ih]

theorem lookupA_eraseA_ne {κ α : Type} [DecidableEq κ]
    (l : List (κ × α)) (k k' : κ) (h : k ≠ k') :
    lookupA (eraseA l k) k' = lookupA l k' := by
  induction l with
  | nil => simp [eraseA]
  | cons hd tl ih =>
      obtain ⟨k₀, v₀⟩ := hd
      by_cases h₀ : k₀ = k
      · subst h₀
        simp [eraseA, lookupA, h]
      · simp [eraseA, lookupA, h₀, ih]

theorem lookupA_none_of_not_mem_keys {κ α : Type} [DecidableEq κ]
    (l : List (κ × α)) (k : κ) (h : k ∉ l.map Prod.fst) :
    lookupA l k = none := by
  induction l with
  | nil => rfl
  | cons hd tl ih =>
      obtain ⟨k₀, v₀⟩ := hd
      simp only [List.map_cons, List.mem_cons] at h
      push_neg at h
      simp only [lookupA, if_neg (Ne.symm h.1)]
      exact ih h.2

theorem lookupA_eraseA_self {κ α : Type} [DecidableEq κ]
    (l : List (κ × α)) (k : κ) (hnd : (l.map Prod.fst).Nodup) :
    lookupA (eraseA l k) k = none := by
  induction l with
  | nil => simp [eraseA, lookupA]
  | cons hd tl ih =>
      obtain ⟨k₀, v₀⟩ := hd
      simp only [List.map_cons, List.nodup_cons] at hnd
      by_cases h₀ : k₀ = k
      · subst h₀
        simp only [eraseA, if_pos rfl]
        exact lookupA_none_of_not_mem_keys _ _ hnd.1
      · simp only [eraseA, if_neg h₀, lookupA, if_neg h₀]
        exact ih hnd.2

theorem keys_insertA_fresh {κ α : Type} [DecidableEq κ]
    (l : List (κ × α)) (k : κ) (v : α) (h : lookupA l k = none) :
    (insertA l k v).map Prod.fst = l.map Prod.fst ++ [k] := by
  induction l with
  | nil => simp [insertA]
  | cons hd tl ih =>
      obtain ⟨k₀, v₀⟩ := hd
      simp only [lookupA] at h
      by_cases h₀ : k₀ = k
      · simp [h₀] at h
      · simp only [if_neg h₀] at h
        simp [insertA, h₀, ih h]

theorem mem_keys_of_lookupA_some {κ α : Type} [DecidableEq κ]
    {l : List (κ × α)} {k : κ} {v : α} (h : lookupA l k = some v) :
    k ∈ l.map Prod.fst := by
  induction l with
  | nil => simp [lookupA] at h
  | cons hd tl ih =>
      obtain ⟨k₀, v₀⟩ := hd
      simp only [lookupA] at h
      by_cases h₀ : k₀ = k
      · simp [h₀]
      · simp only [if_neg h₀] at h
        simp [ih h]

/-! ## Rights (`src/caps/mod.rs`, bitflags over u32) -/

namespace Rights

/-- `Rights::READ` (bit 0). -/
def READ : Nat := 1
/-- `Rights::WRITE` (bit 1). -/
def WRITE : Nat := 2
/-- `Rights::EXECUTE` (bit 2). -/
def EXECUTE : Nat := 4
/-- `Rights::DELETE` (bit 3). -/
def DELETE : Nat := 8
/-- `Rights::RW`. -/
def RW : Nat := 3
/-- `Rights::ALL`. -/
def ALL : Nat := 15

/-- `bitflags`' `contains`: `(self.bits & other.bits) == other.bits`. -/
def contains (a b : Nat) : Bool := a &&& b == b

theorem contains_refl (a : Nat) : contains a a = true := by
  simp [contains]

end Rights

/-! ## Capability data model (`src/caps/mod.rs`) -/

/-- `Resource`: tagged union of resource kinds. -/
inductive Resource : Type
  | Memory (base size : Nat)
  | Device (id : Nat)
  | Object (id : Nat)
  | Cpu (ticks : Nat)
  deriving DecidableEq, Repr

/-- `Capability` record. `CapId` is its `Nat` id. Rights are the bitset. -/
structure Capability : Type where
  id : Nat
  resource : Resource
  rights : Nat
  delegatable : Bool
  revoked : Bool
  deriving DecidableEq, Repr

/-- `CapError` from `src/caps/mod.rs`. -/
inductive CapError : Type
  | NotFound
  | Revoked
  | PermissionDenied
  | CannotEscalate
  | NotDelegatable
  deriving DecidableEq, Repr

/-- State of the capability manager: the registry map plus the
`NEXT_CAP_ID` counter (starts at 1). -/
structure CapMgr : Type where
  caps : List (Nat × Capability)
  nextId : Nat
  deriving DecidableEq, Repr

/-- The boot-time initial manager: empty registry, `NEXT_CAP_ID = 1`. -/
def CapMgr.initial : CapMgr := ⟨[], 1⟩

/-- `manager::mint`: mint a fresh id, insert the capability, return the id. -/
def CapMgr.mint (m : CapMgr) (resource : Resource) (rights : Nat)
    (delegatable : Bool) : CapMgr × Nat :=
  let id := m.nextId
  let cap : Capability := ⟨id, resource, rights, delegatable, false⟩
  (⟨insertA m.caps id cap, m.nextId + 1⟩, id)

/-- `manager::verify`: check presence, revocation, then rights. -/
def CapMgr.verify (m : CapMgr) (capId : Nat) (required : Nat) :
    Except CapError Unit :=
  match lookupA m.caps capId with
  | none => .error .NotFound
  | some cap =>
      if cap.revoked then .error .Revoked
      else if !(Rights.contains cap.rights required) then .error .PermissionDenied
      else .ok ()

/-- `manager::restrict`: mint a restricted child capability. -/
def CapMgr.restrict (m : CapMgr) (parentId : Nat) (newRights : Nat) :
    CapMgr × Except CapError Nat :=
  match lookupA m.caps parentId with
  | none => (m, .error .NotFound)
  | some parent =>
      if parent.revoked then (m, .error .Revoked)
      else if !parent.delegatable then (m, .error .NotDelegatable)
      else if !(Rights.contains parent.rights newRights) then
        (m, .error .CannotEscalate)
      else
        let childId := m.nextId
        let child : Capability :=
          ⟨childId, parent.resource, newRights, parent.delegatable, false⟩
        (⟨insertA m.caps childId child, m.nextId + 1⟩, .ok childId)

/-- `manager::revoke`: set the `revoked` flag of the named capability. -/
def CapMgr.revoke (m : CapMgr) (capId : Nat) : CapMgr × Except CapError Unit :=
  match lookupA m.caps capId with
  | none => (m, .error .NotFound)
  | some cap =>
      (⟨insertA m.caps capId { cap with revoked := true }, m.nextId⟩, .ok ())

/-- `manager::describe`: return resource and rights. -/
def CapMgr.describe (m : CapMgr) (capId : Nat) :
    Except CapError (Resource × Nat) :=
  match lookupA m.caps capId with
  | none => .error .NotFound
  | some cap => .ok (cap.resource, cap.rights)

/-- Well-formedness of a manager state: registry keys are distinct and
all below the `NEXT_CAP_ID` counter.  Holds at boot and is preserved by
every operation. -/
def CapMgr.WF (m : CapMgr) : Prop :=
  (m.caps.map Prod.fst).Nodup ∧ ∀ k ∈ m.caps.map Prod.fst, k < m.nextId

instance (m : CapMgr) : Decidable m.WF := by
  unfold CapMgr.WF; infer_instance

theorem CapMgr.initial_WF : CapMgr.initial.WF := by decide

theorem CapMgr.WF_lookup_lt {m : CapMgr} (h : m.WF) {k : Nat} {c : Capability}
    (hl : lookupA m.caps k = some c) : k < m.nextId :=
  h.2 k (mem_keys_of_lookupA_some hl)

theorem CapMgr.WF_insert_fresh {m : CapMgr} (h : m.WF) (c : Capability) :
    (CapMgr.mk (insertA m.caps m.nextId c) (m.nextId + 1)).WF := by
  have hfresh : lookupA m.caps m.nextId = none := by
    apply lookupA_none_of_not_mem_keys
    intro hmem
    exact absurd (h.2 _ hmem) (lt_irrefl m.nextId)
  constructor
  · rw [keys_insertA_fresh _ _ _ hfresh]
    rw [List.nodup_append]
    refine ⟨h.1, List.nodup_singleton _, ?_⟩
    intro a ha hb
    simp only [List.mem_singleton] at hb
    subst hb
    exact absurd (h.2 _ ha) (lt_irrefl _)
  · intro k hk
    rw [keys_insertA_fresh _ _ _ hfresh] at hk
    rcases List.mem_append.mp hk with hk | hk
    · exact Nat.lt_succ_of_lt (h.2 _ hk)
    · simp only [List.mem_singleton] at hk
      subst hk; exact Nat.lt_succ_self _

theorem CapMgr.mint_WF {m : CapMgr} (h : m.WF) (r : Resource) (ri : Nat)
    (d : Bool) : (m.mint r ri d).1.WF :=
  CapMgr.WF_insert_fresh h _

/-- Keys are preserved (as a set, and even as a list) by insert-replace
on an existing key. -/
theorem keys_insertA_existing {κ α : Type} [DecidableEq κ]
    (l : List (κ × α)) (k : κ) (v : α) (h : (lookupA l k).isSome) :
    (insertA l k v).map Prod.fst = l.map Prod.fst := by
  induction l with
  | nil => simp [lookupA] at h
  | cons hd tl ih =>
      obtain ⟨k₀, v₀⟩ := hd
      by_cases h₀ : k₀ = k
      · subst h₀; simp [insertA]
      · simp only [lookupA, if_neg h₀] at h
        simp [insertA, h₀, ih h]

theorem CapMgr.restrict_WF {m : CapMgr} (h : m.WF) (p r : Nat) :
    (m.restrict p r).1.WF := by
  unfold CapMgr.restrict
  cases hl : lookupA m.caps p with
  | none => exact h
  | some parent =>
      by_cases h₁ : parent.revoked
      · simp [h₁]; exact h
      · by_cases h₂ : parent.delegatable
        · by_cases h₃ : Rights.contains parent.rights r
          · simp [h₁, h₂, h₃]
            exact CapMgr.WF_insert_fresh h _
          · simp [h₁, h₂, h₃]; exact h
        · simp [h₁, h₂]; exact h

theorem CapMgr.revoke_WF {m : CapMgr} (h : m.WF) (c : Nat) :
    (m.revoke c).1.WF := by
  unfold CapMgr.revoke
  cases hl : lookupA m.caps c with
  | none => exact h
  | some cap =>
      have hsome : (lookupA m.caps c).isSome := by rw [hl]; rfl
      constructor
      · simpa [keys_insertA_existing _ _ _ hsome] using h.1
      · intro k hk
        rw [keys_insertA_existing _ _ _ hsome] at hk
        exact h.2 k hk

/-- Characterization of a successful `restrict`. -/
theorem CapMgr.restrict_ok {m m' : CapMgr} {p r cid : Nat}
    (h : m.restrict p r = (m', .ok cid)) :
    ∃ parent, lookupA m.caps p = some parent ∧ parent.revoked = false ∧
      parent.delegatable = true ∧ Rights.contains parent.rights r = true ∧
      cid = m.nextId ∧
      m' = ⟨insertA m.caps m.nextId
              ⟨m.nextId, parent.resource, r, parent.delegatable, false⟩,
            m.nextId + 1⟩ := by
  unfold CapMgr.restrict at h
  cases hl : lookupA m.caps p with
  | none => rw [hl] at h; simp at h
  | some parent =>
      rw [hl] at h
      by_cases h₁ : parent.revoked
      · simp [h₁] at h
      · by_cases h₂ : parent.delegatable
        · by_cases h₃ : Rights.contains parent.rights r
          · simp only [h₁, h₂, h₃, Bool.not_true, Bool.not_false,
              Bool.false_eq_true, if_false, ite_false] at h
            injection h.symm with hm hc
            injection hc with hc
            refine ⟨parent, rfl, by simp [h₁], h₂, h₃, hc, ?_⟩
            rw [hm, h₂]
          · simp [h₁, h₂, h₃] at h
        · simp [h₁, h₂] at h

/-! ## Capability-manager operation sequences (for revocation stickiness) -/

/-- A mutating capability-manager operation (`verify`/`describe` are
read-only and do not change the state). -/
inductive CapOp : Type
  | mint (resource : Resource) (rights : Nat) (delegatable : Bool)
  | restrict (parent : Nat) (rights : Nat)
  | revoke (cap : Nat)
  deriving DecidableEq, Repr

/-- Apply one operation to the manager state. -/
def applyCapOp (m : CapMgr) : CapOp → CapMgr
  | .mint res r d => (m.mint res r d).1
  | .restrict p r => (m.restrict p r).1
  | .revoke c => (m.revoke c).1

/-- Apply a sequence of operations, left to right. -/
def applyCapOps (m : CapMgr) (ops : List CapOp) : CapMgr :=
  ops.foldl applyCapOp m

theorem applyCapOp_WF {m : CapMgr} (h : m.WF) (o : CapOp) :
    (applyCapOp m o).WF := by
  cases o with
  | mint res r d => exact CapMgr.mint_WF h res r d
  | restrict p r => exact CapMgr.restrict_WF h p r
  | revoke c => exact CapMgr.revoke_WF h c

/-- A revoked entry stays present and revoked across any single operation. -/
theorem applyCapOp_revoked_sticky {m : CapMgr} {c : Nat} {cap : Capability}
    (hWF : m.WF) (hl : lookupA m.caps c = some cap) (hrev : cap.revoked = true)
    (o : CapOp) :
    ∃ cap', lookupA (applyCapOp m o).caps c = some cap' ∧
      cap'.revoked = true := by
  have hlt : c < m.nextId := CapMgr.WF_lookup_lt hWF hl
  have hne : m.nextId ≠ c := fun h => absurd (h ▸ hlt) (lt_irrefl _)
  cases o with
  | mint res r d =>
      refine ⟨cap, ?_, hrev⟩
      simp [applyCapOp, CapMgr.mint, lookupA_insertA, hne, hl]
  | restrict p r =>
      refine ⟨cap, ?_, hrev⟩
      simp only [applyCapOp]
      unfold CapMgr.restrict
      cases hp : lookupA m.caps p with
      | none => simpa using hl
      | some parent =>
          by_cases h₁ : parent.revoked
          · simpa [h₁] using hl
          · by_cases h₂ : parent.delegatable
            · by_cases h₃ : Rights.contains parent.rights r
              · simp only [h₁, h₂, h₃, Bool.not_true, Bool.false_eq_true,
                  if_false, ite_false]
                simpa [lookupA_insertA, hne] using hl
              · simpa [h₁, h₂, h₃] using hl
            · simpa [h₁, h₂] using hl
  | revoke c' =>
      simp only [applyCapOp]
      unfold CapMgr.revoke
      cases hc' : lookupA m.caps c' with
      | none => exact ⟨cap, hl, hrev⟩
      | some cap' =>
          by_cases hcc : c' = c
          · subst hcc
            refine ⟨{ cap' with revoked := true }, ?_, rfl⟩
            simp [lookupA_insertA]
          · refine ⟨cap, ?_, hrev⟩
            simpa [lookupA_insertA, hcc] using hl

/-- Revocation stickiness across a whole operation sequence. -/
theorem applyCapOps_revoked_sticky {m : CapMgr} {c : Nat} {cap : Capability}
    (hWF : m.WF) (hl : lookupA m.caps c = some cap) (hrev : cap.revoked = true)
    (ops : List CapOp) :
    ∃ cap', lookupA (applyCapOps m ops).caps c = some cap' ∧
      cap'.revoked = true := by
  induction ops generalizing m cap with
  | nil => exact ⟨cap, hl, hrev⟩
  | cons o rest ih =>
      obtain ⟨cap', hl', hrev'⟩ := applyCapOp_revoked_sticky hWF hl hrev o
      exact ih (applyCapOp_WF hWF o) hl' hrev'

/-- An unrevoked entry stays present and unrevoked across any single
operation that is not a `revoke` of that very capability. -/
theorem applyCapOp_unrevoked {m : CapMgr} {c : Nat} {cap : Capability}
    (hWF : m.WF) (hl : lookupA m.caps c = some cap) (hrev : cap.revoked = false)
    (o : CapOp) (ho : o ≠ .revoke c) :
    ∃ cap', lookupA (applyCapOp m o).caps c = some cap' ∧
      cap'.revoked = false := by
  have hlt : c < m.nextId := CapMgr.WF_lookup_lt hWF hl
  have hne : m.nextId ≠ c := fun h => absurd (h ▸ hlt) (lt_irrefl _)
  cases o with
  | mint res r d =>
      refine ⟨cap, ?_, hrev⟩
      simp [applyCapOp, CapMgr.mint, lookupA_insertA, hne, hl]
  | restrict p r =>
      refine ⟨cap, ?_, hrev⟩
      simp only [applyCapOp]
      unfold CapMgr.restrict
      cases hp : lookupA m.caps p with
      | none => simpa using hl
      | some parent =>
          by_cases h₁ : parent.revoked
          · simpa [h₁] using hl
          · by_cases h₂ : parent.delegatable
            · by_cases h₃ : Rights.contains parent.rights r
              · simp only [h₁, h₂, h₃, Bool.not_true, Bool.false_eq_true,
                  if_false, ite_false]
                simpa [lookupA_insertA, hne] using hl
              · simpa [h₁, h₂, h₃] using hl
            · simpa [h₁, h₂] using hl
  | revoke c' =>
      have hcc : c' ≠ c := fun h => ho (by rw [h])
      refine ⟨cap, ?_, hrev⟩
      simp only [applyCapOp]
      unfold CapMgr.revoke
      cases hc' : lookupA m.caps c' with
      | none => exact hl
      | some cap'' => simpa [lookupA_insertA, hcc] using hl

/-- A never-revoked entry stays unrevoked across a sequence of
operations none of which revokes it. -/
theorem applyCapOps_unrevoked {m : CapMgr} {c : Nat} {cap : Capability}
    (hWF : m.WF) (hl : lookupA m.caps c = some cap) (hrev : cap.revoked = false)
    (ops : List CapOp) (hops : ∀ o ∈ ops, o ≠ .revoke c) :
    ∃ cap', lookupA (applyCapOps m ops).caps c = some cap' ∧
      cap'.revoked = false := by
  induction ops generalizing m cap with
  | nil => exact ⟨cap, hl, hrev⟩
  | cons o rest ih =>
      obtain ⟨cap', hl', hrev'⟩ :=
        applyCapOp_unrevoked hWF hl hrev o (hops o (List.mem_cons_self o rest))
      exact ih (applyCapOp_WF hWF o) hl' hrev'
        (fun o' ho' => hops o' (List.mem_cons_of_mem o ho'))

/-! ## Claim C1: `restrict` error cases and child shape -/

/-- **C1.** For every parent capability `p` and rights set `r`,
`restrict(p, r)` fails with `NotFound` if `p` is absent from the
registry, `Revoked` if `p` is revoked, `NotDelegatable` if `p` has
`delegatable = false`, and `CannotEscalate` if `r` is not a subset of
`p`'s rights; on success it mints a fresh child capability sharing
`p`'s resource, with rights exactly `r` (hence a subset of the
parent's rights), `delegatable` inherited from `p`, `revoked = false`. -/
theorem C1_restrict_spec (m : CapMgr) (p r : Nat) (hWF : m.WF) :
    (lookupA m.caps p = none → m.restrict p r = (m, .error .NotFound)) ∧
    (∀ c, lookupA m.caps p = some c →
      (c.revoked = true → m.restrict p r = (m, .error .Revoked)) ∧
      (c.revoked = false → c.delegatable = false →
        m.restrict p r = (m, .error .NotDelegatable)) ∧
      (c.revoked = false → c.delegatable = true →
        Rights.contains c.rights r = false →
        m.restrict p r = (m, .error .CannotEscalate)) ∧
      (c.revoked = false → c.delegatable = true →
        Rights.contains c.rights r = true →
        ∃ m' cid, m.restrict p r = (m', .ok cid) ∧
          lookupA m.caps cid = none ∧
          lookupA m'.caps cid =
            some ⟨cid, c.resource, r, c.delegatable, false⟩ ∧
          Rights.contains c.rights r = true)) := by
  constructor
  · intro hl
    simp [CapMgr.restrict, hl]
  · intro c hl
    refine ⟨?_, ?_, ?_, ?_⟩
    · intro hrev; simp [CapMgr.restrict, hl, hrev]
    · intro hrev hdel; simp [CapMgr.restrict, hl, hrev, hdel]
    · intro hrev hdel hcon; simp [CapMgr.restrict, hl, hrev, hdel, hcon]
    · intro hrev hdel hcon
      have hfresh : lookupA m.caps m.nextId = none := by
        apply lookupA_none_of_not_mem_keys
        intro hmem
        exact absurd (hWF.2 _ hmem) (lt_irrefl _)
      refine ⟨⟨insertA m.caps m.nextId
          ⟨m.nextId, c.resource, r, c.delegatable, false⟩, m.nextId + 1⟩,
        m.nextId, ?_, hfresh, ?_, hcon⟩
      · simp [CapMgr.restrict, hl, hrev, hdel, hcon]
      · simp [lookupA_insertA]

/-- Witness for C1: restricting an RWX, delegatable capability to READ
succeeds and produces the expected child. -/
theorem C1_restrict_spec_witness :
    ∃ m' cid,
      (CapMgr.mk [(1, ⟨1, .Object 0, 7, true, false⟩)] 2).restrict 1 1 =
        (m', .ok cid) ∧
      lookupA (CapMgr.mk [(1, ⟨1, .Object 0, 7, true, false⟩)] 2).caps cid =
        none ∧
      lookupA m'.caps cid = some ⟨cid, .Object 0, 1, true, false⟩ ∧
      Rights.contains 7 1 = true := by
  have h := C1_restrict_spec
      ⟨[(1, ⟨1, .Object 0, 7, true, false⟩)], 2⟩ 1 1 (by decide)
  exact (h.2 ⟨1, .Object 0, 7, true, false⟩ (by decide)).2.2.2 rfl rfl (by decide)

/-! ## Claim C2: `verify` characterization and revocation stickiness -/

/-- **C2.** `verify(c, required)` returns ok iff `c` is present, not
revoked, and `required ⊆ c.rights`, with errors `NotFound` / `Revoked`
/ `PermissionDenied` as specified; after a successful `revoke(c)`, any
sequence of further operations leaves every `verify(c, r)` failing with
`Revoked`; and `verify` on a freshly minted capability never returns
`Revoked` as long as no operation revokes that very capability. -/
theorem C2_verify_spec :
    (∀ m : CapMgr, ∀ c r : Nat, (m.verify c r = .ok () ↔
        ∃ cap, lookupA m.caps c = some cap ∧ cap.revoked = false ∧
          Rights.contains cap.rights r = true)) ∧
    (∀ m : CapMgr, ∀ c r : Nat, lookupA m.caps c = none →
        m.verify c r = .error .NotFound) ∧
    (∀ m : CapMgr, ∀ c r : Nat, ∀ cap, lookupA m.caps c = some cap →
        cap.revoked = true → m.verify c r = .error .Revoked) ∧
    (∀ m : CapMgr, ∀ c r : Nat, ∀ cap, lookupA m.caps c = some cap →
        cap.revoked = false → Rights.contains cap.rights r = false →
        m.verify c r = .error .PermissionDenied) ∧
    (∀ m : CapMgr, ∀ c : Nat, m.WF → (m.revoke c).2 = .ok () →
        ∀ ops : List CapOp, ∀ r : Nat,
          (applyCapOps (m.revoke c).1 ops).verify c r = .error .Revoked) ∧
    (∀ m : CapMgr, ∀ res : Resource, ∀ ri : Nat, ∀ d : Bool, ∀ r : Nat,
        ∀ ops : List CapOp, m.WF →
        (∀ o ∈ ops, o ≠ .revoke (m.mint res ri d).2) →
        (applyCapOps (m.mint res ri d).1 ops).verify (m.mint res ri d).2 r ≠
          .error .Revoked) := by
  refine ⟨?_, ?_, ?_, ?_, ?_, ?_⟩
  · intro m c r
    constructor
    · intro h
      unfold CapMgr.verify at h
      cases hl : lookupA m.caps c with
      | none => rw [hl] at h; simp at h
      | some cap =>
          rw [hl] at h
          by_cases h₁ : cap.revoked
          · simp [h₁] at h
          · by_cases h₂ : Rights.contains cap.rights r
            · exact ⟨cap, rfl, by simp [h₁], h₂⟩
            · simp [h₁, h₂] at h
    · rintro ⟨cap, hl, h₁, h₂⟩
      simp [CapMgr.verify, hl, h₁, h₂]
  · intro m c r hl; simp [CapMgr.verify, hl]
  · intro m c r cap hl h₁; simp [CapMgr.verify, hl, h₁]
  · intro m c r cap hl h₁ h₂; simp [CapMgr.verify, hl, h₁, h₂]
  · intro m c hWF hok ops r
    cases hl : lookupA m.caps c with
    | none =>
        unfold CapMgr.revoke at hok
        rw [hl] at hok
        simp at hok
    | some cap =>
        have hrv : (m.revoke c).1 =
            ⟨insertA m.caps c { cap with revoked := true }, m.nextId⟩ := by
          simp [CapMgr.revoke, hl]
        rw [hrv]
        have hWF' : (CapMgr.mk (insertA m.caps c { cap with revoked := true })
            m.nextId).WF := by
          have h' := CapMgr.revoke_WF hWF (c := c)
          rw [hrv] at h'
          exact h'
        have hl' : lookupA (insertA m.caps c { cap with revoked := true }) c =
            some { cap with revoked := true } := by
          simp [lookupA_insertA]
        obtain ⟨cap', hfin, hrev'⟩ :=
          applyCapOps_revoked_sticky hWF' hl' rfl ops
        simp [CapMgr.verify, hfin, hrev']
  · intro m res ri d r ops hWF hops
    have hWF' : (m.mint res ri d).1.WF := CapMgr.mint_WF hWF res ri d
    have hl' : lookupA (m.mint res ri d).1.caps (m.mint res ri d).2 =
        some ⟨m.nextId, res, ri, d, false⟩ := by
      simp [CapMgr.mint, lookupA_insertA]
    obtain ⟨cap', hfin, hrev'⟩ := applyCapOps_unrevoked hWF' hl' rfl ops hops
    intro hcontra
    unfold CapMgr.verify at hcontra
    rw [hfin] at hcontra
    cases hc : Rights.contains cap'.rights r <;>
      simp [hrev', hc] at hcontra

/-- Witness for C2: a concrete revoked capability keeps failing
`Revoked` after a further mint, and a concrete fresh capability does
not fail `Revoked`. -/
theorem C2_verify_spec_witness :
    ((applyCapOps ((CapMgr.mk [(1, ⟨1, .Object 0, 3, true, false⟩)] 2).revoke 1).1
        [.mint (.Object 0) 3 true]).verify 1 1) = .error .Revoked ∧
    ((applyCapOps (CapMgr.initial.mint (.Object 0) 1 false).1 []).verify
        (CapMgr.initial.mint (.Object 0) 1 false).2 2) ≠ .error .Revoked := by
  constructor
  · exact C2_verify_spec.2.2.2.2.1
      ⟨[(1, ⟨1, .Object 0, 3, true, false⟩)], 2⟩ 1 (by decide) rfl
      [.mint (.Object 0) 3 true] 1
  · exact C2_verify_spec.2.2.2.2.2 CapMgr.initial (.Object 0) 1 false 2 []
      (by decide) (by intro o ho; simp at ho)

/-! ## Claim C6: revocation is point-wise, not transitive -/

/-- **C6.** For every delegatable parent `p` and child `c` obtained
from a successful `restrict(p, r)`, a subsequent `revoke(p)` succeeds,
leaves `c` unaffected (`verify(c, r)` still succeeds), changes only
`p`'s entry (setting its `revoked` flag) and no other registry entry. -/
theorem C6_revoke_pointwise (m : CapMgr) (p r : Nat) (hWF : m.WF)
    (m' : CapMgr) (cid : Nat) (hres : m.restrict p r = (m', .ok cid)) :
    (m'.revoke p).2 = .ok () ∧
    (m'.revoke p).1.verify cid r = .ok () ∧
    (∀ k, k ≠ p → lookupA (m'.revoke p).1.caps k = lookupA m'.caps k) ∧
    (∀ pc, lookupA m'.caps p = some pc →
      lookupA (m'.revoke p).1.caps p = some { pc with revoked := true }) := by
  obtain ⟨parent, hl, h₁, h₂, h₃, hcid, hm'⟩ := CapMgr.restrict_ok hres
  have hplt : p < m.nextId := CapMgr.WF_lookup_lt hWF hl
  have hpne : m.nextId ≠ p := fun h => absurd (h ▸ hplt) (lt_irrefl _)
  have hpcne : p ≠ cid := by
    rw [hcid]; exact fun hh => hpne hh.symm
  have hlp : lookupA m'.caps p = some parent := by
    rw [hm']
    simp [lookupA_insertA, hpne, hl]
  have hlc : lookupA m'.caps cid =
      some ⟨m.nextId, parent.resource, r, parent.delegatable, false⟩ := by
    rw [hm', hcid]
    simp [lookupA_insertA]
  have hstep : (m'.revoke p).1.caps =
      insertA m'.caps p { parent with revoked := true } := by
    simp [CapMgr.revoke, hlp]
  refine ⟨?_, ?_, ?_, ?_⟩
  · simp [CapMgr.revoke, hlp]
  · have hlook : lookupA (m'.revoke p).1.caps cid =
        some ⟨m.nextId, parent.resource, r, parent.delegatable, false⟩ := by
      rw [hstep, lookupA_insertA, if_neg hpcne]
      exact hlc
    simp [CapMgr.verify, hlook, Rights.contains_refl]
  · intro k hk
    rw [hstep, lookupA_insertA, if_neg (Ne.symm hk)]
  · intro pc hpc
    rw [hlp] at hpc
    injection hpc with hpc
    subst hpc
    rw [hstep, lookupA_insertA, if_pos rfl]

/-- Witness for C6 at a concrete registry: restrict then revoke the
parent; the child still verifies and the sibling entry is untouched. -/
theorem C6_revoke_pointwise_witness :
    ((((CapMgr.mk [(1, ⟨1, .Object 0, 7, true, false⟩)] 2).restrict 1 1).1.revoke
        1).2 = .ok ()) ∧
    ((((CapMgr.mk [(1, ⟨1, .Object 0, 7, true, false⟩)] 2).restrict 1 1).1.revoke
        1).1.verify 2 1 = .ok ()) := by
  have h := C6_revoke_pointwise ⟨[(1, ⟨1, .Object 0, 7, true, false⟩)], 2⟩ 1 1
      (by decide)
      (((CapMgr.mk [(1, ⟨1, .Object 0, 7, true, false⟩)] 2).restrict 1 1).1) 2
      rfl
  exact ⟨h.1, h.2.1⟩

/-! ## Object store data model (`src/objstore/mod.rs`) -/

/-- `hash_content`: 64-bit FNV-1a over the content bytes
(offset basis `0xcbf29ce484222325`, prime `0x100000001b3`,
byte-wise XOR then wrapping multiply). Content is a byte list. -/
def hash_content (data : List Nat) : Nat :=
  data.foldl (fun h b => ((h ^^^ b) * 0x100000001b3) % 2 ^ 64)
    0xcbf29ce484222325

namespace ObjId

/-- `ObjId::from_content`. -/
def from_content (data : List Nat) : Nat := hash_content data

end ObjId

/-- `Object` record (`metadata` is a string-keyed map). -/
structure Object : Type where
  id : Nat
  content : List Nat
  tags : List String
  metadata : List (String × String)
  deriving DecidableEq, Repr

/-- `Object::new`: id is the content hash; no tags, no metadata. -/
def Object.new (content : List Nat) : Object :=
  ⟨hash_content content, content, [], []⟩

/-- `Object::with_tag`: append a tag. -/
def Object.with_tag (o : Object) (tag : String) : Object :=
  { o with tags := o.tags ++ [tag] }

/-- `Object::with_meta`: insert a metadata key/value. -/
def Object.with_meta (o : Object) (key val : String) : Object :=
  { o with metadata := insertA o.metadata key val }

/-- `ObjError` from `src/objstore/mod.rs`. -/
inductive ObjError : Type
  | NotFound
  | AlreadyExists
  deriving DecidableEq, Repr

/-! ## Raw store (`src/objstore/store.rs`) -/

/-- State of the raw store: `objects` map and `tag_index` map. -/
structure Store : Type where
  objects : List (Nat × Object)
  tagIndex : List (String × List Nat)
  deriving DecidableEq, Repr

/-- The boot-time empty store. -/
def Store.empty : Store := ⟨[], []⟩

/-- `tag_index.entry(tag).or_insert_with(Vec::new).push(id)`. -/
def pushTag : List (String × List Nat) → String → Nat → List (String × List Nat)
  | [], tag, id => [(tag, [id])]
  | (t, ids) :: r, tag, id =>
      if t = tag then (t, ids ++ [id]) :: r else (t, ids) :: pushTag r tag id

/-- `if let Some(ids) = tag_index.get_mut(tag) { ids.retain(|i| *i != id) }`. -/
def removeTag : List (String × List Nat) → String → Nat → List (String × List Nat)
  | [], _, _ => []
  | (t, ids) :: r, tag, id =>
      if t = tag then (t, ids.filter (fun i => i ≠ id)) :: r
      else (t, ids) :: removeTag r tag id

/-- `store::create`: reject a duplicate id, else index the tags and
insert the object. -/
def Store.create (s : Store) (obj : Object) : Store × Except ObjError Nat :=
  if containsA s.objects obj.id then (s, .error .AlreadyExists)
  else
    (⟨insertA s.objects obj.id obj,
      obj.tags.foldl (fun ti tag => pushTag ti tag obj.id) s.tagIndex⟩,
     .ok obj.id)

/-- `store::read`: clone the stored object (read-only: no state change). -/
def Store.read (s : Store) (id : Nat) : Except ObjError Object :=
  match lookupA s.objects id with
  | none => .error .NotFound
  | some o => .ok o

/-- `store::query_by_tag`: snapshot of the tag's id list
(read-only; empty list when the tag is unknown). -/
def Store.query_by_tag (s : Store) (tag : String) : List Nat :=
  (lookupA s.tagIndex tag).getD []

/-- `store::delete`: remove the object and prune its tags. -/
def Store.delete (s : Store) (id : Nat) : Store × Except ObjError Unit :=
  match lookupA s.objects id with
  | none => (s, .error .NotFound)
  | some obj =>
      (⟨eraseA s.objects id,
        obj.tags.foldl (fun ti tag => removeTag ti tag id) s.tagIndex⟩,
       .ok ())

/-- `store::count`: number of live objects. -/
def Store.count (s : Store) : Nat := s.objects.length

/-! ## Claim C4: content addressing -/

/-- **C4.** The stored id is the FNV-1a hash of the content (offset
basis `0xcbf29ce484222325`, prime `0x100000001b3`, byte-wise XOR then
wrapping multiply): `ObjId.from_content x` equals the id returned by
`create(Object::new(x))`; and of two `create` calls with identical
content, the first succeeds and the second fails `AlreadyExists`. -/
theorem C4_content_addressing (x : List Nat) (s : Store)
    (h : containsA s.objects (hash_content x) = false) :
    hash_content x =
      x.foldl (fun h b => ((h ^^^ b) * 0x100000001b3) % 2 ^ 64)
        0xcbf29ce484222325 ∧
    (s.create (Object.new x)).2 = .ok (ObjId.from_content x) ∧
    ((s.create (Object.new x)).1.create (Object.new x)).2 =
      .error .AlreadyExists := by
  have hobj : (Object.new x).id = hash_content x := rfl
  refine ⟨rfl, ?_, ?_⟩
  · simp [Store.create, hobj, h, ObjId.from_content]
  · have h1 : (s.create (Object.new x)).1 =
        ⟨insertA s.objects (hash_content x) (Object.new x),
         (Object.new x).tags.foldl
           (fun ti tag => pushTag ti tag (Object.new x).id) s.tagIndex⟩ := by
      simp [Store.create, hobj, h]
    rw [h1]
    have h2 : containsA
        (insertA s.objects (hash_content x) (Object.new x))
        (Object.new x).id = true := by
      simp [containsA, hobj, lookupA_insertA]
    simp [Store.create, h2]

/-- Witness for C4 on the empty store with content `b"hello"`. -/
theorem C4_content_addressing_witness :
    containsA Store.empty.objects (hash_content [104, 101, 108, 108, 111]) =
      false ∧
    (Store.empty.create (Object.new [104, 101, 108, 108, 111])).2 =
      .ok (ObjId.from_content [104, 101, 108, 108, 111]) ∧
    ((Store.empty.create (Object.new [104, 101, 108, 108, 111])).1.create
        (Object.new [104, 101, 108, 108, 111])).2 = .error .AlreadyExists := by
  refine ⟨rfl, ?_⟩
  have h := C4_content_addressing [104, 101, 108, 108, 111] Store.empty rfl
  exact ⟨h.2.1, h.2.2⟩

/-! ## Claim C10: raw store error atomicity -/

/-- **C10.** Raw store operations are atomic on error: if `create`
returns `AlreadyExists` (exactly when the id is already present) or
`delete` returns `NotFound` (exactly when the id is absent), the state
is exactly as before the call; `query_by_tag` on an unknown tag
returns the empty list rather than an error.  (`read` and
`query_by_tag` are embedded as pure functions of the store state: the
source performs only lookups in them.) -/
theorem C10_error_atomicity :
    (∀ (s : Store) (obj : Object),
       (s.create obj).2 = .error .AlreadyExists → (s.create obj).1 = s) ∧
    (∀ (s : Store) (obj : Object),
       containsA s.objects obj.id = true →
       s.create obj = (s, .error .AlreadyExists)) ∧
    (∀ (s : Store) (i : Nat),
       (s.delete i).2 = .error .NotFound → (s.delete i).1 = s) ∧
    (∀ (s : Store) (i : Nat),
       lookupA s.objects i = none → s.delete i = (s, .error .NotFound)) ∧
    (∀ (s : Store) (t : String),
       lookupA s.tagIndex t = none → s.query_by_tag t = []) := by
  refine ⟨?_, ?_, ?_, ?_, ?_⟩
  · intro s obj h
    unfold Store.create at h ⊢
    by_cases hc : containsA s.objects obj.id
    · simp [hc]
    · simp [hc] at h
  · intro s obj hc
    simp [Store.create, hc]
  · intro s i h
    unfold Store.delete at h ⊢
    cases hl : lookupA s.objects i with
    | none => simp [hl]
    | some o => rw [hl] at h; simp at h
  · intro s i hl
    simp [Store.delete, hl]
  · intro s t hl
    simp [Store.query_by_tag, hl]

/-- Witness for C10 at a concrete store holding one object. -/
theorem C10_error_atomicity_witness :
    (((Store.empty.create (Object.new [1])).1.create (Object.new [1])).1 =
      (Store.empty.create (Object.new [1])).1) ∧
    ((Store.empty.delete 5).1 = Store.empty) ∧
    (Store.empty.query_by_tag "missing" = []) := by
  refine ⟨?_, ?_, ?_⟩
  · exact C10_error_atomicity.1 (Store.empty.create (Object.new [1])).1
      (Object.new [1]) rfl
  · exact C10_error_atomicity.2.2.1 Store.empty 5 rfl
  · exact C10_error_atomicity.2.2.2.2 Store.empty "missing" rfl

/-! ## Claim C5: tag-index consistency -/
theorem not_mem_keys_of_lookupA_none {κ α : Type} [DecidableEq κ]
    {l : List (κ × α)} {k : κ} (h : lookupA l k = none) :
    k ∉ l.map Prod.fst := by
  induction l with
  | nil => simp
  | cons hd tl ih =>
      obtain ⟨k₀, v₀⟩ := hd
      simp only [lookupA] at h
      by_cases h₀ : k₀ = k
      · simp [h₀] at h
      · simp only [if_neg h₀] at h
        simp only [List.map_cons, List.mem_cons]
        rintro (rfl | hmem)
        · exact h₀ rfl
        · exact ih h hmem

theorem lookupA_pushTag (ti : List (String × List Nat)) (tag : String)
    (id : Nat) (t' : String) :
    lookupA (pushTag ti tag id) t' =
      if t' = tag then some ((lookupA ti tag).getD [] ++ [id])
      else lookupA ti t' := by
  induction ti with
  | nil =>
      by_cases h : t' = tag
      · subst h; simp [pushTag, lookupA]
      · simp [pushTag, lookupA, h, Ne.symm h]
  | cons hd r ih =>
      obtain ⟨t₀, ids₀⟩ := hd
      by_cases h₀ : t₀ = tag
      · subst h₀
        by_cases h₁ : t' = t₀
        · subst h₁
          simp [pushTag, lookupA]
        · simp [pushTag, lookupA, h₁, Ne.symm h₁]
      · by_cases h₁ : t₀ = t'
        · subst h₁
          simp [pushTag, lookupA, h₀, Ne.symm h₀]
        · simp [pushTag, lookupA, h₀, h₁, ih]

theorem lookupA_removeTag (ti : List (String × List Nat)) (tag : String)
    (id : Nat) (t' : String) :
    lookupA (removeTag ti tag id) t' =
      if t' = tag then
        (lookupA ti tag).map (fun ids => ids.filter (fun i => i ≠ id))
      else lookupA ti t' := by
  induction ti with
  | nil =>
      by_cases h : t' = tag
      · subst h; simp [removeTag, lookupA]
      · simp [removeTag, lookupA, h, Ne.symm h]
  | cons hd r ih =>
      obtain ⟨t₀, ids₀⟩ := hd
      by_cases h₀ : t₀ = tag
      · subst h₀
        by_cases h₁ : t' = t₀
        · subst h₁
          simp [removeTag, lookupA]
        · simp [removeTag, lookupA, h₁, Ne.symm h₁]
      · by_cases h₁ : t₀ = t'
        · subst h₁
          simp [removeTag, lookupA, h₀, Ne.symm h₀]
        · simp [removeTag, lookupA, h₀, h₁, ih]

/-- Membership after indexing all of an object's tags. -/
theorem mem_foldl_pushTag (tags : List String) (id : Nat)
    (ti : List (String × List Nat)) (t : String) (i : Nat) :
    (i ∈ (lookupA (tags.foldl (fun a tag => pushTag a tag id) ti) t).getD []) ↔
      (i ∈ (lookupA ti t).getD [] ∨ (t ∈ tags ∧ i = id)) := by
  induction tags generalizing ti with
  | nil => simp
  | cons tag rest ih =>
      simp only [List.foldl_cons]
      rw [ih (pushTag ti tag id), lookupA_pushTag]
      by_cases h : t = tag
      · rw [h, if_pos rfl, Option.getD_some]
        constructor
        · rintro (hm | ⟨ht, hid⟩)
          · rcases List.mem_append.mp hm with hm' | hm'
            · exact Or.inl hm'
            · exact Or.inr ⟨List.mem_cons_self tag rest,
                List.mem_singleton.mp hm'⟩
          · exact Or.inr ⟨List.mem_cons_of_mem tag ht, hid⟩
        · rintro (hm | ⟨-, hid⟩)
          · exact Or.inl (List.mem_append.mpr (Or.inl hm))
          · subst hid
            exact Or.inl (List.mem_append.mpr
              (Or.inr (List.mem_singleton.mpr rfl)))
      · rw [if_neg h]
        constructor
        · rintro (hm | ⟨ht, hid⟩)
          · exact Or.inl hm
          · exact Or.inr ⟨List.mem_cons_of_mem tag ht, hid⟩
        · rintro (hm | ⟨ht, hid⟩)
          · exact Or.inl hm
          · rcases List.mem_cons.mp ht with h' | h'
            · exact absurd h' h
            · exact Or.inr ⟨h', hid⟩

/-- Membership after pruning all of an object's tags. -/
theorem mem_foldl_removeTag (tags : List String) (id : Nat)
    (ti : List (String × List Nat)) (t : String) (i : Nat) :
    (i ∈ (lookupA (tags.foldl (fun a tag => removeTag a tag id) ti) t).getD []) ↔
      (i ∈ (lookupA ti t).getD [] ∧ ¬(t ∈ tags ∧ i = id)) := by
  induction tags generalizing ti with
  | nil => simp
  | cons tag rest ih =>
      simp only [List.foldl_cons]
      rw [ih (removeTag ti tag id), lookupA_removeTag]
      by_cases h : t = tag
      · rw [h, if_pos rfl]
        cases hl : lookupA ti tag with
        | none => simp
        | some ids =>
            rw [Option.map_some', Option.getD_some, Option.getD_some]
            constructor
            · rintro ⟨hmf, -⟩
              have hm := List.mem_filter.mp hmf
              have hne : i ≠ id := by simpa using hm.2
              refine ⟨hm.1, ?_⟩
              rintro ⟨-, hid⟩
              exact hne hid
            · rintro ⟨hm, hno⟩
              have hne : i ≠ id :=
                fun hid => hno ⟨List.mem_cons_self tag rest, hid⟩
              refine ⟨List.mem_filter.mpr ⟨hm, by simpa using hne⟩, ?_⟩
              rintro ⟨-, hid⟩
              exact hne hid
      · rw [if_neg h]
        constructor
        · rintro ⟨hmem, hno⟩
          refine ⟨hmem, ?_⟩
          rintro ⟨ht, hid⟩
          rcases List.mem_cons.mp ht with h' | h'
          · exact h h'
          · exact hno ⟨h', hid⟩
        · rintro ⟨hmem, hno⟩
          refine ⟨hmem, ?_⟩
          rintro ⟨ht, hid⟩
          exact hno ⟨List.mem_cons_of_mem tag ht, hid⟩

/-- The keys of the tag index after a push: unchanged when the tag is
already indexed, otherwise the tag is appended. -/
theorem keys_pushTag (ti : List (String × List Nat)) (tag : String)
    (id : Nat) :
    (pushTag ti tag id).map Prod.fst =
      if tag ∈ ti.map Prod.fst then ti.map Prod.fst
      else ti.map Prod.fst ++ [tag] := by
  induction ti with
  | nil => simp [pushTag]
  | cons hd r ih =>
      obtain ⟨t₀, ids₀⟩ := hd
      by_cases h₀ : t₀ = tag
      · subst h₀
        simp [pushTag]
      · by_cases hc : tag ∈ r.map Prod.fst
        · simp [pushTag, h₀, Ne.symm h₀, hc, ih]
        · simp [pushTag, h₀, Ne.symm h₀, hc, ih]

theorem keys_pushTag_nodup {ti : List (String × List Nat)} {tag : String}
    {id : Nat} (h : (ti.map Prod.fst).Nodup) :
    ((pushTag ti tag id).map Prod.fst).Nodup := by
  rw [keys_pushTag]
  by_cases hc : tag ∈ ti.map Prod.fst
  · rw [if_pos hc]; exact h
  · rw [if_neg hc]
    exact h.append (List.nodup_singleton _)
      (fun a ha hb => hc ((List.mem_singleton.mp hb) ▸ ha))

theorem keys_removeTag {ti : List (String × List Nat)} {tag : String}
    {id : Nat} : (removeTag ti tag id).map Prod.fst = ti.map Prod.fst := by
  induction ti with
  | nil => simp [removeTag]
  | cons hd r ih =>
      obtain ⟨t₀, ids₀⟩ := hd
      by_cases h₀ : t₀ = tag
      · simp [removeTag, h₀]
      · simp [removeTag, h₀, ih]

theorem keys_eraseA_sublist {κ α : Type} [DecidableEq κ]
    (l : List (κ × α)) (k : κ) :
    ((eraseA l k).map Prod.fst).Sublist (l.map Prod.fst) := by
  induction l with
  | nil => simp [eraseA]
  | cons hd r ih =>
      obtain ⟨k₀, v₀⟩ := hd
      by_cases h₀ : k₀ = k
      · simp only [eraseA, if_pos h₀, List.map_cons]
        exact List.Sublist.cons _ (List.Sublist.refl _)
      · simp only [eraseA, if_neg h₀, List.map_cons]
        exact List.Sublist.cons₂ _ ih

/-- The tag-index consistency invariant from the spec:
`id ∈ tag_index[t] ⇔ t ∈ objects[id].tags`. -/
def Store.Inv (s : Store) : Prop :=
  ∀ (t : String) (i : Nat),
    i ∈ s.query_by_tag t ↔ ∃ o, lookupA s.objects i = some o ∧ t ∈ o.tags

/-- Structural well-formedness: both maps have distinct keys. -/
def Store.WFs (s : Store) : Prop :=
  (s.objects.map Prod.fst).Nodup ∧ (s.tagIndex.map Prod.fst).Nodup

/-- Mutating store operations (reads do not change the state). -/
inductive StoreOp : Type
  | create (obj : Object)
  | delete (id : Nat)
  deriving Repr

/-- Apply one store operation. -/
def applyStoreOp (s : Store) : StoreOp → Store
  | .create o => (s.create o).1
  | .delete i => (s.delete i).1

/-- Apply a sequence of store operations, left to right. -/
def applyStoreOps (s : Store) (ops : List StoreOp) : Store :=
  ops.foldl applyStoreOp s

theorem applyStoreOp_WFs_Inv {s : Store} (hWF : s.WFs) (hInv : s.Inv)
    (o : StoreOp) : (applyStoreOp s o).WFs ∧ (applyStoreOp s o).Inv := by
  cases o with
  | create obj =>
      by_cases hc : containsA s.objects obj.id
      · simp only [applyStoreOp, Store.create, if_pos hc]
        exact ⟨hWF, hInv⟩
      · have hl : lookupA s.objects obj.id = none := by
          revert hc
          unfold containsA
          cases lookupA s.objects obj.id <;> simp
        have hnotin : obj.id ∉ s.objects.map Prod.fst :=
          not_mem_keys_of_lookupA_none hl
        simp only [applyStoreOp, Store.create, if_neg hc]
        constructor
        · constructor
          · rw [keys_insertA_fresh _ _ _ hl]
            exact hWF.1.append (List.nodup_singleton _)
              (fun a ha hb => hnotin ((List.mem_singleton.mp hb) ▸ ha))
          · have hstep : ∀ (tags : List String) (ti : List (String × List Nat)),
                (ti.map Prod.fst).Nodup →
                ((tags.foldl (fun a tag => pushTag a tag obj.id) ti).map
                  Prod.fst).Nodup := by
              intro tags
              induction tags with
              | nil => intro ti h; exact h
              | cons tag rest ih =>
                  intro ti h
                  exact ih _ (keys_pushTag_nodup h)
            exact hstep obj.tags s.tagIndex hWF.2
        · intro t i
          simp only [Store.query_by_tag]
          rw [mem_foldl_pushTag]
          have hInv' := hInv t i
          simp only [Store.query_by_tag] at hInv'
          rw [hInv']
          by_cases hi : i = obj.id
          · subst hi
            have hli : lookupA (insertA s.objects obj.id obj) obj.id =
                some obj := by
              rw [lookupA_insertA, if_pos rfl]
            constructor
            · rintro (⟨o, ho, hto⟩ | ⟨ht, -⟩)
              · rw [hl] at ho; cases ho
              · exact ⟨obj, hli, ht⟩
            · rintro ⟨o, ho, hto⟩
              rw [hli] at ho
              injection ho with ho
              subst ho
              exact Or.inr ⟨hto, rfl⟩
          · have hli : lookupA (insertA s.objects obj.id obj) i =
                lookupA s.objects i := by
              rw [lookupA_insertA, if_neg (fun hh => hi hh.symm)]
            rw [hli]
            constructor
            · rintro (h' | ⟨-, hid⟩)
              · exact h'
              · exact absurd hid hi
            · exact fun h' => Or.inl h'
  | delete i₀ =>
      cases hl : lookupA s.objects i₀ with
      | none =>
          simp only [applyStoreOp, Store.delete, hl]
          exact ⟨hWF, hInv⟩
      | some obj =>
          simp only [applyStoreOp, Store.delete, hl]
          constructor
          · constructor
            · exact List.Nodup.sublist (keys_eraseA_sublist s.objects i₀) hWF.1
            · have hstep : ∀ (tags : List String) (ti : List (String × List Nat)),
                  (ti.map Prod.fst).Nodup →
                  ((tags.foldl (fun a tag => removeTag a tag i₀) ti).map
                    Prod.fst).Nodup := by
                intro tags
                induction tags with
                | nil => intro ti h; exact h
                | cons tag rest ih =>
                    intro ti h
                    refine ih _ ?_
                    rw [keys_removeTag]
                    exact h
              exact hstep obj.tags s.tagIndex hWF.2
          · intro t i
            simp only [Store.query_by_tag]
            rw [mem_foldl_removeTag]
            have hInv' := hInv t i
            simp only [Store.query_by_tag] at hInv'
            rw [hInv']
            by_cases hi : i = i₀
            · subst hi
              rw [lookupA_eraseA_self _ _ hWF.1]
              constructor
              · rintro ⟨⟨o, ho, hto⟩, hno⟩
                rw [hl] at ho
                injection ho with ho
                subst ho
                exact absurd ⟨hto, rfl⟩ hno
              · rintro ⟨o, ho, -⟩
                cases ho
            · rw [lookupA_eraseA_ne _ _ _ (fun hh => hi hh.symm)]
              constructor
              · rintro ⟨h', -⟩
                exact h'
              · intro h'
                refine ⟨h', ?_⟩
                rintro ⟨-, hid⟩
                exact hi hid

theorem applyStoreOps_WFs_Inv {s : Store} (hWF : s.WFs) (hInv : s.Inv)
    (ops : List StoreOp) :
    (applyStoreOps s ops).WFs ∧ (applyStoreOps s ops).Inv := by
  induction ops generalizing s with
  | nil => exact ⟨hWF, hInv⟩
  | cons o rest ih =>
      obtain ⟨hWF', hInv'⟩ := applyStoreOp_WFs_Inv hWF hInv o
      exact ih hWF' hInv'

/-- **C5.** After any sequence of `create`/`delete` operations starting
from the empty store, for every tag `t` and object id `i`: `i` appears
in `query_by_tag(t)` (equivalently, in `tag_index[t]`) iff `i` names a
live object in the store whose tags contain `t`. -/
theorem C5_tag_index_consistency (ops : List StoreOp) (t : String) (i : Nat) :
    i ∈ (applyStoreOps Store.empty ops).query_by_tag t ↔
      ∃ o, lookupA (applyStoreOps Store.empty ops).objects i = some o ∧
        t ∈ o.tags := by
  have hWF : Store.empty.WFs := ⟨List.nodup_nil, List.nodup_nil⟩
  have hInv : Store.empty.Inv := by
    intro t' i'
    simp [Store.query_by_tag, Store.empty, lookupA]
  exact (applyStoreOps_WFs_Inv hWF hInv ops).2 t i

/-! ## Capability-gated store facade (`src/objstore/gated.rs`) -/

/-- `GatedError`: the flattened sum of capability and store errors. -/
inductive GatedError : Type
  | cap (e : CapError)
  | store (e : ObjError)
  deriving DecidableEq, Repr

/-- `gated::create`: verify WRITE, then call the raw store. -/
def gatedCreate (m : CapMgr) (s : Store) (capId : Nat) (obj : Object) :
    Store × Except GatedError Nat :=
  match m.verify capId Rights.WRITE with
  | .error e => (s, .error (.cap e))
  | .ok _ =>
      match s.create obj with
      | (s', .error e) => (s', .error (.store e))
      | (s', .ok id) => (s', .ok id)

/-- `gated::read`: verify READ, then call the raw store (read-only). -/
def gatedRead (m : CapMgr) (s : Store) (capId : Nat) (objId : Nat) :
    Except GatedError Object :=
  match m.verify capId Rights.READ with
  | .error e => .error (.cap e)
  | .ok _ =>
      match s.read objId with
      | .error e => .error (.store e)
      | .ok o => .ok o

/-- `gated::query_by_tag`: verify READ, then query (read-only, infallible). -/
def gatedQueryByTag (m : CapMgr) (s : Store) (capId : Nat) (tag : String) :
    Except GatedError (List Nat) :=
  match m.verify capId Rights.READ with
  | .error e => .error (.cap e)
  | .ok _ => .ok (s.query_by_tag tag)

/-- `gated::delete`: verify DELETE, then call the raw store. -/
def gatedDelete (m : CapMgr) (s : Store) (capId : Nat) (objId : Nat) :
    Store × Except GatedError Unit :=
  match m.verify capId Rights.DELETE with
  | .error e => (s, .error (.cap e))
  | .ok _ =>
      match s.delete objId with
      | (s', .error e) => (s', .error (.store e))
      | (s', .ok _) => (s', .ok ())

/-! ## Claim C3: gating — verify first, fail without touching the store -/

/-- **C3.** Every gated store operation first calls `verify` on the
supplied cap id with the required right (WRITE for create, READ for
read and query_by_tag, DELETE for delete) and, when verification
fails, returns the capability error without invoking the raw store
(the store state is returned unchanged); on successful verification
the operation is exactly the raw store operation.  In particular a
gated create presented with a present, unrevoked capability lacking
WRITE returns `PermissionDenied` and leaves `count()` unchanged. -/
theorem C3_gated_verify_first (m : CapMgr) (s : Store) (c : Nat) :
    (∀ (obj : Object) (e : CapError), m.verify c Rights.WRITE = .error e →
        gatedCreate m s c obj = (s, .error (.cap e)) ∧
        (gatedCreate m s c obj).1.count = s.count) ∧
    (∀ (oid : Nat) (e : CapError), m.verify c Rights.READ = .error e →
        gatedRead m s c oid = .error (.cap e)) ∧
    (∀ (tag : String) (e : CapError), m.verify c Rights.READ = .error e →
        gatedQueryByTag m s c tag = .error (.cap e)) ∧
    (∀ (oid : Nat) (e : CapError), m.verify c Rights.DELETE = .error e →
        gatedDelete m s c oid = (s, .error (.cap e)) ∧
        (gatedDelete m s c oid).1.count = s.count) ∧
    (∀ obj : Object, m.verify c Rights.WRITE = .ok () →
        (gatedCreate m s c obj).1 = (s.create obj).1) ∧
    (∀ oid : Nat, m.verify c Rights.DELETE = .ok () →
        (gatedDelete m s c oid).1 = (s.delete oid).1) ∧
    (∀ obj : Object, ∀ cap : Capability, lookupA m.caps c = some cap →
        cap.revoked = false → Rights.contains cap.rights Rights.WRITE = false →
        gatedCreate m s c obj = (s, .error (.cap .PermissionDenied)) ∧
        (gatedCreate m s c obj).1.count = s.count) := by
  refine ⟨?_, ?_, ?_, ?_, ?_, ?_, ?_⟩
  · intro obj e he
    have : gatedCreate m s c obj = (s, .error (.cap e)) := by
      simp [gatedCreate, he]
    exact ⟨this, by rw [this]⟩
  · intro oid e he
    simp [gatedRead, he]
  · intro tag e he
    simp [gatedQueryByTag, he]
  · intro oid e he
    have : gatedDelete m s c oid = (s, .error (.cap e)) := by
      simp [gatedDelete, he]
    exact ⟨this, by rw [this]⟩
  · intro obj he
    simp only [gatedCreate, he]
    rcases hc : s.create obj with ⟨s', r⟩
    cases r <;> simp
  · intro oid he
    simp only [gatedDelete, he]
    rcases hc : s.delete oid with ⟨s', r⟩
    cases r <;> simp
  · intro obj cap hl hrev hcon
    have he : m.verify c Rights.WRITE = .error .PermissionDenied := by
      simp [CapMgr.verify, hl, hrev, hcon]
    have : gatedCreate m s c obj = (s, .error (.cap .PermissionDenied)) := by
      simp [gatedCreate, he]
    exact ⟨this, by rw [this]⟩

/-- Witness for C3: a registry holding only a READ capability; gated
create is denied and the store (here holding one object) is unchanged. -/
theorem C3_gated_verify_first_witness :
    gatedCreate (CapMgr.mk [(1, ⟨1, .Object 0, 1, false, false⟩)] 2)
        (Store.empty.create (Object.new [1])).1 1 (Object.new [2]) =
      ((Store.empty.create (Object.new [1])).1,
        .error (.cap .PermissionDenied)) ∧
    (gatedCreate (CapMgr.mk [(1, ⟨1, .Object 0, 1, false, false⟩)] 2)
        (Store.empty.create (Object.new [1])).1 1 (Object.new [2])).1.count =
      (Store.empty.create (Object.new [1])).1.count := by
  exact (C3_gated_verify_first
      ⟨[(1, ⟨1, .Object 0, 1, false, false⟩)], 2⟩
      (Store.empty.create (Object.new [1])).1 1).2.2.2.2.2.2
      (Object.new [2]) ⟨1, .Object 0, 1, false, false⟩ (by decide) rfl rfl

/-! ## Fuel counter (`src/task/scheduler.rs`) -/

/-- `DEFAULT_FUEL`: timer ticks per task slice. -/
def DEFAULT_FUEL : Nat := 18

/-- `timer_tick`: decrement the fuel counter, saturating at 0
(the `u64` is only decremented under a positivity check, so it never
wraps; hence plain `Nat`). -/
def timer_tick (fuel : Nat) : Nat :=
  if fuel > 0 then fuel - 1 else fuel

/-- `fuel_exhausted`. -/
def fuel_exhausted (fuel : Nat) : Bool := fuel == 0

/-- `refuel`: reset the fuel counter to `DEFAULT_FUEL`. -/
def refuel (_fuel : Nat) : Nat := DEFAULT_FUEL

/-- `timer_handler` (`src/arch/interrupts.rs`): increment the (wrapping
u64) tick counter and decrement the fuel.  State is `(ticks, fuel)`. -/
def timer_handler (st : Nat × Nat) : Nat × Nat :=
  ((st.1 + 1) % 2 ^ 64, timer_tick st.2)

theorem timer_tick_iterate (k n : Nat) : timer_tick^[k] n = n - k := by
  induction k with
  | zero => simp
  | succ k ih =>
      rw [Function.iterate_succ_apply', ih]
      unfold timer_tick
      by_cases h : n - k > 0
      · rw [if_pos h]; omega
      · rw [if_neg h]; omega

/-! ## Claim C9: fuel arithmetic -/

/-- **C9.** Starting from `fuel_remaining = DEFAULT_FUEL (= 18)`,
applying the timer-tick operation `k` times leaves
`fuel_remaining = max(0, 18 − k)` (the decrement saturates at 0 and
never wraps), and `refuel()` restores the value to 18. -/
theorem C9_fuel_arithmetic (k : Nat) :
    DEFAULT_FUEL = 18 ∧
    timer_tick^[k] DEFAULT_FUEL = DEFAULT_FUEL - k ∧
    ((timer_tick^[k] DEFAULT_FUEL : Nat) : Int) = max 0 (18 - (k : Int)) ∧
    (∀ f : Nat, refuel f = 18) := by
  refine ⟨rfl, timer_tick_iterate k DEFAULT_FUEL, ?_, fun f => rfl⟩
  rw [timer_tick_iterate k DEFAULT_FUEL]
  rcases Nat.le_total k 18 with h | h
  · rw [max_eq_right (by omega : (0 : Int) ≤ 18 - (k : Int))]
    have : ((18 - k : Nat) : Int) = 18 - (k : Int) := by
      push_cast [h]
      ring
    simpa [DEFAULT_FUEL] using this
  · rw [max_eq_left (by omega : (18 : Int) - (k : Int) ≤ 0)]
    simp [DEFAULT_FUEL, Nat.sub_eq_zero_of_le h]

/-! ## Task and scheduler (`src/task/mod.rs`, `src/task/scheduler.rs`) -/

/-- `TaskState`. -/
inductive TaskState : Type
  | Ready
  | Running
  | Done
  deriving DecidableEq, Repr

/-- `Task` record from `src/task/mod.rs`.  The `step_fn` function
pointer is represented by the event trace the scheduler emits: a call
`step_fn(step_index, caps)` becomes an emitted invocation event. -/
structure Task : Type where
  id : Nat
  name : String
  state : TaskState
  currentStep : Nat
  totalSteps : Nat
  caps : List Nat
  deriving DecidableEq, Repr

/-- `Task::new`: Ready, `current_step = 0` (the id comes from the
`NEXT_ID` counter, here passed explicitly). -/
def Task.new (id : Nat) (name : String) (totalSteps : Nat)
    (caps : List Nat) : Task :=
  ⟨id, name, .Ready, 0, totalSteps, caps⟩

/-- Observable scheduler events: one `step` per `step_fn` invocation
(with the `current_step` argument passed to it), and one `completed`
per task-completion trace line. -/
inductive SEvent : Type
  | step (name : String) (idx : Nat)
  | completed (name : String)
  deriving DecidableEq, Repr

/-- `Scheduler::run` (`src/task/scheduler.rs`): pop the front task,
run exactly one step if any remain, then either drop it as Done
(emitting the completion trace) or push it back Ready; repeat until
the queue is empty.  (Each turn also calls `refuel()` on the global
fuel counter; the fuel is not part of the queue state and never read
by `run`.) -/
def schedRun : List Task → List SEvent
  | [] => []
  | t :: rest =>
      if t.currentStep < t.totalSteps then
        if t.currentStep + 1 ≥ t.totalSteps then
          .step t.name t.currentStep :: .completed t.name :: schedRun rest
        else
          .step t.name t.currentStep ::
            schedRun (rest ++
              [{ t with state := .Ready, currentStep := t.currentStep + 1 }])
      else
        .completed t.name :: schedRun rest
  termination_by q => (q.map (fun t => t.totalSteps - t.currentStep)).sum + q.length
  decreasing_by
  all_goals
    simp only [List.map_append, List.map_cons, List.sum_append,
      List.sum_cons, List.map_nil, List.sum_nil, List.length_append,
      List.length_cons, List.length_nil]
    omega

/-- The step-invocation trace: `(name, step_index)` per `step_fn` call. -/
def stepEvents (l : List SEvent) : List (String × Nat) :=
  l.filterMap (fun e => match e with
    | .step n i => some (n, i)
    | .completed _ => none)

/-- The completion trace: task names in completion order. -/
def completionEvents (l : List SEvent) : List String :=
  l.filterMap (fun e => match e with
    | .completed n => some n
    | .step _ _ => none)

@[simp] theorem stepEvents_nil : stepEvents [] = [] := rfl

@[simp] theorem stepEvents_cons_step (n : String) (i : Nat) (l : List SEvent) :
    stepEvents (.step n i :: l) = (n, i) :: stepEvents l := rfl

@[simp] theorem stepEvents_cons_completed (n : String) (l : List SEvent) :
    stepEvents (.completed n :: l) = stepEvents l := rfl

@[simp] theorem completionEvents_nil : completionEvents [] = [] := rfl

@[simp] theorem completionEvents_cons_step (n : String) (i : Nat)
    (l : List SEvent) : completionEvents (.step n i :: l) =
      completionEvents l := rfl

@[simp] theorem completionEvents_cons_completed (n : String)
    (l : List SEvent) : completionEvents (.completed n :: l) =
      n :: completionEvents l := rfl

/-- Total number of step invocations: one per remaining step of each
queued task (claim C7's "total scheduler turns = Σ sᵢ"). -/
theorem stepEvents_schedRun_length (q : List Task) :
    (stepEvents (schedRun q)).length =
      (q.map (fun t => t.totalSteps - t.currentStep)).sum := by
  induction q using schedRun.induct with
  | case1 => simp [schedRun]
  | case2 t rest h1 h2 ih =>
      simp only [schedRun, if_pos h1, if_pos h2, stepEvents_cons_step,
        stepEvents_cons_completed, List.length_cons, List.map_cons,
        List.sum_cons, ih]
      omega
  | case3 t rest h1 h2 ih =>
      simp only [schedRun, if_pos h1, if_neg h2, stepEvents_cons_step,
        List.length_cons, ih, List.map_append, List.map_cons, List.map_nil,
        List.sum_append, List.sum_cons, List.sum_nil]
      omega
  | case4 t rest h1 ih =>
      simp only [schedRun, if_neg h1, stepEvents_cons_completed, ih,
        List.map_cons, List.sum_cons]
      omega

/-! ## Round structure of the schedule -/

/-- The events of round-robin round `j`: every queued task with at
least `j + 1` remaining steps runs its `(currentStep + j)`-th step, in
queue order. -/
def roundEvents (q : List Task) (j : Nat) : List (String × Nat) :=
  (q.filter (fun t => t.currentStep + j < t.totalSteps)).map
    (fun t => (t.name, t.currentStep + j))

@[simp] theorem roundEvents_nil (j : Nat) : roundEvents [] j = [] := rfl

theorem roundEvents_cons (t : Task) (rest : List Task) (j : Nat) :
    roundEvents (t :: rest) j =
      (if t.currentStep + j < t.totalSteps
        then [(t.name, t.currentStep + j)] else []) ++ roundEvents rest j := by
  by_cases h : t.currentStep + j < t.totalSteps
  · simp [roundEvents, h]
  · simp [roundEvents, h]

theorem roundEvents_append (q₁ q₂ : List Task) (j : Nat) :
    roundEvents (q₁ ++ q₂) j = roundEvents q₁ j ++ roundEvents q₂ j := by
  simp [roundEvents, List.filter_append]

theorem roundEvents_singleton_shift (t : Task) (j : Nat) :
    roundEvents
        [{ t with state := TaskState.Ready,
                  currentStep := t.currentStep + 1 }] j =
      (if t.currentStep + (j + 1) < t.totalSteps
        then [(t.name, t.currentStep + (j + 1))] else []) := by
  have harith : t.currentStep + 1 + j = t.currentStep + (j + 1) := by omega
  rw [roundEvents_cons, roundEvents_nil, List.append_nil]
  simp only [harith]

theorem flatten_map_nil {α β : Type} (l : List β) :
    (l.map (fun _ => ([] : List α))).flatten = [] := by
  induction l with
  | nil => rfl
  | cons a l ih => simp [ih]

/-- Rotating the head contribution through the rounds: the defining
algebraic fact behind "pop front, step once, push back". -/
theorem join_rotate {α : Type} (f g : Nat → List α) (B : Nat) :
    ((List.range B).map (fun j => f j ++ g j)).flatten ++ f B =
      f 0 ++ ((List.range B).map (fun j => g j ++ f (j + 1))).flatten := by
  induction B with
  | zero => simp
  | succ B ih =>
      rw [List.range_succ]
      simp only [List.map_append, List.map_cons, List.map_nil,
        List.flatten_append, List.flatten_cons, List.flatten_nil,
        List.append_nil]
      calc (((List.range B).map (fun j => f j ++ g j)).flatten ++
              (f B ++ g B)) ++ f (B + 1)
          = (((List.range B).map (fun j => f j ++ g j)).flatten ++ f B) ++
              (g B ++ f (B + 1)) := by
            simp [List.append_assoc]
        _ = (f 0 ++
              ((List.range B).map (fun j => g j ++ f (j + 1))).flatten) ++
              (g B ++ f (B + 1)) := by rw [ih]
        _ = f 0 ++
              (((List.range B).map (fun j => g j ++ f (j + 1))).flatten ++
                (g B ++ f (B + 1))) := by
            simp [List.append_assoc]

theorem join_rotate' {α : Type} (f g : Nat → List α) (B : Nat)
    (hfB : f B = []) :
    ((List.range B).map (fun j => f j ++ g j)).flatten =
      f 0 ++ ((List.range B).map (fun j => g j ++ f (j + 1))).flatten := by
  have h := join_rotate f g B
  rw [hfB, List.append_nil] at h
  exact h

/-- Closed form of the schedule: the step-invocation trace is exactly
the concatenation of the round-robin rounds. -/
theorem stepEvents_schedRun_eq_rounds :
    ∀ (q : List Task) (B : Nat),
      (∀ t ∈ q, t.totalSteps - t.currentStep ≤ B) →
      stepEvents (schedRun q) =
        ((List.range B).map (roundEvents q)).flatten := by
  intro q
  induction q using schedRun.induct with
  | case1 =>
      intro B hB
      simp only [schedRun, stepEvents_nil]
      have hmap : (List.range B).map (roundEvents []) =
          (List.range B).map (fun _ => []) :=
        List.map_congr_left (fun j _ => roundEvents_nil j)
      rw [hmap, flatten_map_nil]
  | case2 t rest h1 h2 ih =>
      intro B hB
      have hBt : t.totalSteps - t.currentStep ≤ B :=
        hB t (List.mem_cons_self t rest)
      simp only [schedRun, if_pos h1, if_pos h2, stepEvents_cons_step,
        stepEvents_cons_completed]
      rw [ih B (fun u hu => hB u (List.mem_cons_of_mem t hu))]
      have hmap : (List.range B).map (roundEvents (t :: rest)) =
          (List.range B).map (fun j =>
            (if t.currentStep + j < t.totalSteps
              then [(t.name, t.currentStep + j)] else []) ++
            roundEvents rest j) :=
        List.map_congr_left (fun j _ => roundEvents_cons t rest j)
      rw [hmap, join_rotate' _ _ B (if_neg (by omega))]
      have hmap2 : (List.range B).map (fun j =>
            roundEvents rest j ++
            (if t.currentStep + (j + 1) < t.totalSteps
              then [(t.name, t.currentStep + (j + 1))] else [])) =
          (List.range B).map (roundEvents rest) :=
        List.map_congr_left (fun j _ => by
          rw [if_neg (by omega), List.append_nil])
      rw [hmap2, if_pos (by omega : t.currentStep + 0 < t.totalSteps)]
      simp
  | case3 t rest h1 h2 ih =>
      intro B hB
      have hBt : t.totalSteps - t.currentStep ≤ B :=
        hB t (List.mem_cons_self t rest)
      have hB' : ∀ u ∈ rest ++
          [{ t with state := TaskState.Ready,
                    currentStep := t.currentStep + 1 }],
          u.totalSteps - u.currentStep ≤ B := by
        intro u hu
        rcases List.mem_append.mp hu with hu | hu
        · exact hB u (List.mem_cons_of_mem t hu)
        · rw [List.mem_singleton] at hu
          subst hu
          simp only
          omega
      simp only [schedRun, if_pos h1, if_neg h2, stepEvents_cons_step]
      rw [ih B hB']
      have hmap : (List.range B).map (roundEvents (t :: rest)) =
          (List.range B).map (fun j =>
            (if t.currentStep + j < t.totalSteps
              then [(t.name, t.currentStep + j)] else []) ++
            roundEvents rest j) :=
        List.map_congr_left (fun j _ => roundEvents_cons t rest j)
      rw [hmap, join_rotate' _ _ B (if_neg (by omega))]
      have hmap2 : (List.range B).map (fun j =>
            roundEvents rest j ++
            (if t.currentStep + (j + 1) < t.totalSteps
              then [(t.name, t.currentStep + (j + 1))] else [])) =
          (List.range B).map (roundEvents (rest ++
            [{ t with state := TaskState.Ready,
                      currentStep := t.currentStep + 1 }])) :=
        List.map_congr_left (fun j _ => by
          rw [roundEvents_append, roundEvents_singleton_shift])
      rw [hmap2, if_pos (by omega : t.currentStep + 0 < t.totalSteps)]
      simp
  | case4 t rest h1 ih =>
      intro B hB
      simp only [schedRun, if_neg h1, stepEvents_cons_completed]
      rw [ih B (fun u hu => hB u (List.mem_cons_of_mem t hu))]
      have hmap : (List.range B).map (roundEvents (t :: rest)) =
          (List.range B).map (roundEvents rest) :=
        List.map_congr_left (fun j _ => by
          rw [roundEvents_cons, if_neg (by omega), List.nil_append])
      rw [hmap]

theorem mem_roundEvents {q : List Task} {j : Nat} {e : String × Nat} :
    e ∈ roundEvents q j ↔
      ∃ t, t ∈ q ∧ t.currentStep + j < t.totalSteps ∧
        e = (t.name, t.currentStep + j) := by
  constructor
  · intro h
    obtain ⟨t, ht, he⟩ := List.mem_map.mp h
    obtain ⟨htq, hp⟩ := List.mem_filter.mp ht
    exact ⟨t, htq, by simpa using hp, he.symm⟩
  · rintro ⟨t, htq, hp, rfl⟩
    exact List.mem_map.mpr ⟨t, List.mem_filter.mpr ⟨htq, by simpa using hp⟩,
      rfl⟩

theorem map_fst_roundEvents (q : List Task) (j : Nat) :
    (roundEvents q j).map Prod.fst =
      (q.filter (fun t => t.currentStep + j < t.totalSteps)).map Task.name := by
  simp [roundEvents, List.map_map, Function.comp]

theorem range_split_succ (n : Nat) :
    List.range (n + 1) = List.range n ++ [n] := by
  rw [← Nat.succ_eq_add_one, List.range_succ]

/-- Round-robin interleaving: between the `k`-th and `(k+1)`-th step of
a task `T` (spawned with `current_step = 0` into a queue of
distinctly-named tasks), the schedule runs exactly one step of each
other task that is still unfinished at that point, and of no other
task. -/
theorem schedRun_between_steps
    (qa : List Task) (T : Task) (qb : List Task) (k : Nat)
    (h0 : ∀ t ∈ qa ++ T :: qb, t.currentStep = 0)
    (hnd : ((qa ++ T :: qb).map Task.name).Nodup)
    (hk : k + 1 < T.totalSteps) :
    ∃ A v w,
      stepEvents (schedRun (qa ++ T :: qb)) =
        A ++ ((T.name, k) :: (v ++ ((T.name, k + 1) :: w))) ∧
      (∀ e ∈ A, e ≠ (T.name, k) ∧ e ≠ (T.name, k + 1)) ∧
      (∀ e ∈ v, e.1 ≠ T.name) ∧
      (∀ e ∈ w, e ≠ (T.name, k) ∧ e ≠ (T.name, k + 1)) ∧
      (v.map Prod.fst).Nodup ∧
      (∀ n, n ∈ v.map Prod.fst ↔
        (n ≠ T.name ∧ n ∈ (v ++ ((T.name, k + 1) :: w)).map Prod.fst)) ∧
      v.length = min ((qa ++ T :: qb).length - 1) v.length := by
  have hT0 : T.currentStep = 0 := h0 T (by simp)
  have hkT : k < T.totalSteps := by omega
  -- name disjointness facts
  rw [List.map_append, List.map_cons] at hnd
  obtain ⟨hqa, hcons, hdisj⟩ := List.nodup_append.mp hnd
  obtain ⟨hTb, hqb⟩ := List.nodup_cons.mp hcons
  have hTa : T.name ∉ qa.map Task.name :=
    fun h => (hdisj h) (List.mem_cons_self _ _)
  have hab : ∀ n ∈ qa.map Task.name, n ∉ qb.map Task.name :=
    fun n hn hn' => (hdisj hn) (List.mem_cons_of_mem _ hn')
  -- a bound on every task's remaining steps
  have hB : ∀ t ∈ qa ++ T :: qb, t.totalSteps - t.currentStep ≤
      ((qa ++ T :: qb).map Task.totalSteps).sum + k + 2 := by
    intro t ht
    have h1 : t.totalSteps ≤ ((qa ++ T :: qb).map Task.totalSteps).sum :=
      List.single_le_sum (fun x _ => Nat.zero_le x) _
        (List.mem_map_of_mem Task.totalSteps ht)
    omega
  have htr := stepEvents_schedRun_eq_rounds (qa ++ T :: qb)
    (((qa ++ T :: qb).map Task.totalSteps).sum + k + 2) hB
  -- split the range at k, k+1
  have hD : ((qa ++ T :: qb).map Task.totalSteps).sum + k + 2 =
      (k + 2) + (((qa ++ T :: qb).map Task.totalSteps).sum) := by omega
  have hrange : List.range (((qa ++ T :: qb).map Task.totalSteps).sum + k + 2) =
      ((List.range k ++ [k]) ++ [k + 1]) ++
        (List.range (((qa ++ T :: qb).map Task.totalSteps).sum)).map
          (fun x => (k + 2) + x) := by
    rw [hD, List.range_add]
    congr 1
    rw [show k + 2 = (k + 1) + 1 by omega, range_split_succ,
      range_split_succ]
  -- the two central rounds, decomposed around T
  have hRk : roundEvents (qa ++ T :: qb) k =
      roundEvents qa k ++ ((T.name, k) :: roundEvents qb k) := by
    rw [roundEvents_append, roundEvents_cons, hT0, Nat.zero_add,
      if_pos hkT, List.singleton_append]
  have hRk1 : roundEvents (qa ++ T :: qb) (k + 1) =
      roundEvents qa (k + 1) ++ ((T.name, k + 1) :: roundEvents qb (k + 1)) := by
    rw [roundEvents_append, roundEvents_cons, hT0, Nat.zero_add,
      if_pos hk, List.singleton_append]
  -- membership helpers
  have hfwd : ∀ (sub : List Task), (∀ t ∈ sub, t ∈ qa ++ T :: qb) →
      ∀ (j : Nat) (e : String × Nat), e ∈ roundEvents sub j →
        ∃ t, t ∈ sub ∧ e.1 = t.name ∧ j < t.totalSteps ∧ e.2 = j := by
    intro sub hsub j e he
    obtain ⟨t, ht, hlt, rfl⟩ := mem_roundEvents.mp he
    have hc := h0 t (hsub t ht)
    exact ⟨t, ht, rfl, by omega, by simp [hc]⟩
  have hsub_qa : ∀ t ∈ qa, t ∈ qa ++ T :: qb :=
    fun t ht => List.mem_append_left _ ht
  have hsub_qb : ∀ t ∈ qb, t ∈ qa ++ T :: qb :=
    fun t ht => List.mem_append_right _ (List.mem_cons_of_mem _ ht)
  refine ⟨(((List.range k).map
      (roundEvents (qa ++ T :: qb))).flatten) ++ roundEvents qa k,
    roundEvents qb k ++ roundEvents qa (k + 1),
    roundEvents qb (k + 1) ++
      (((List.range (((qa ++ T :: qb).map Task.totalSteps).sum)).map
        (fun x => (k + 2) + x)).map
          (roundEvents (qa ++ T :: qb))).flatten,
    ?_, ?_, ?_, ?_, ?_, ?_, ?_⟩
  · -- the trace decomposition
    rw [htr, hrange]
    simp only [List.map_append, List.flatten_append, List.map_cons,
      List.flatten_cons, List.map_nil, List.flatten_nil, List.append_nil]
    rw [hRk, hRk1]
    simp only [List.append_assoc, List.cons_append]
  · -- nothing in the prefix is a k- or (k+1)-step of T
    intro e he
    rcases List.mem_append.mp he with he | he
    · obtain ⟨l, hl, hel⟩ := List.mem_flatten.mp he
      obtain ⟨j, hj, rfl⟩ := List.mem_map.mp hl
      rw [List.mem_range] at hj
      obtain ⟨t, ht, ht1, ht2, ht3⟩ :=
        hfwd (qa ++ T :: qb) (fun t ht => ht) j e hel
      constructor
      · intro heq; rw [heq] at ht3; simp at ht3; omega
      · intro heq; rw [heq] at ht3; simp at ht3; omega
    · obtain ⟨t, ht, ht1, -, -⟩ := hfwd qa hsub_qa k e he
      have hne : e.1 ≠ T.name := by
        intro hh
        exact hTa (List.mem_map.mpr ⟨t, ht, (ht1.symm.trans hh)⟩)
      constructor
      · intro heq; rw [heq] at hne; exact hne rfl
      · intro heq; rw [heq] at hne; exact hne rfl
  · -- the middle segment contains no step of T
    intro e he
    rcases List.mem_append.mp he with he | he
    · obtain ⟨t, ht, ht1, -, -⟩ := hfwd qb hsub_qb k e he
      intro hh
      exact hTb ((ht1.symm.trans hh) ▸ List.mem_map.mpr ⟨t, ht, rfl⟩)
    · obtain ⟨t, ht, ht1, -, -⟩ := hfwd qa hsub_qa (k + 1) e he
      intro hh
      exact hTa ((ht1.symm.trans hh) ▸ List.mem_map.mpr ⟨t, ht, rfl⟩)
  · -- nothing in the suffix is a k- or (k+1)-step of T
    intro e he
    rcases List.mem_append.mp he with he | he
    · obtain ⟨t, ht, ht1, -, -⟩ := hfwd qb hsub_qb (k + 1) e he
      have hne : e.1 ≠ T.name := by
        intro hh
        exact hTb ((ht1.symm.trans hh) ▸ List.mem_map.mpr ⟨t, ht, rfl⟩)
      constructor
      · intro heq; rw [heq] at hne; exact hne rfl
      · intro heq; rw [heq] at hne; exact hne rfl
    · obtain ⟨l, hl, hel⟩ := List.mem_flatten.mp he
      obtain ⟨j, hj, rfl⟩ := List.mem_map.mp hl
      obtain ⟨x, -, rfl⟩ := List.mem_map.mp hj
      obtain ⟨t, ht, ht1, ht2, ht3⟩ :=
        hfwd (qa ++ T :: qb) (fun t ht => ht) ((k + 2) + x) e hel
      constructor
      · intro heq; rw [heq] at ht3; simp at ht3; omega
      · intro heq; rw [heq] at ht3; simp at ht3; omega
  · -- each other task appears at most once in the middle segment
    rw [List.map_append, map_fst_roundEvents, map_fst_roundEvents]
    refine List.Nodup.append ?_ ?_ ?_
    · exact List.Nodup.sublist
        (List.Sublist.map Task.name (List.filter_sublist qb)) hqb
    · exact List.Nodup.sublist
        (List.Sublist.map Task.name (List.filter_sublist qa)) hqa
    · intro a ha hb
      obtain ⟨t, ht, rfl⟩ := List.mem_map.mp ha
      obtain ⟨u, hu, huu⟩ := List.mem_map.mp hb
      have htqb : t ∈ qb := List.mem_of_mem_filter ht
      have huqa : u ∈ qa := List.mem_of_mem_filter hu
      exact hab u.name (List.mem_map.mpr ⟨u, huqa, rfl⟩)
        (huu ▸ List.mem_map.mpr ⟨t, htqb, rfl⟩)
  · -- the middle names are exactly the unfinished other tasks
    intro n
    constructor
    · intro hn
      obtain ⟨e, he, rfl⟩ := List.mem_map.mp hn
      refine ⟨?_, List.mem_map.mpr ⟨e, List.mem_append_left _ he, rfl⟩⟩
      rcases List.mem_append.mp he with he | he
      · obtain ⟨t, ht, ht1, -, -⟩ := hfwd qb hsub_qb k e he
        intro hh
        exact hTb ((ht1.symm.trans hh) ▸ List.mem_map.mpr ⟨t, ht, rfl⟩)
      · obtain ⟨t, ht, ht1, -, -⟩ := hfwd qa hsub_qa (k + 1) e he
        intro hh
        exact hTa ((ht1.symm.trans hh) ▸ List.mem_map.mpr ⟨t, ht, rfl⟩)
    · rintro ⟨hne, hmem⟩
      obtain ⟨e, he, rfl⟩ := List.mem_map.mp hmem
      rcases List.mem_append.mp he with he | he
      · exact List.mem_map.mpr ⟨e, he, rfl⟩
      · rcases List.mem_cons.mp he with rfl | he
        · exact absurd rfl hne
        · rcases List.mem_append.mp he with he | he
          · -- a (k+1)-step of a qb-task: it also has a k-step in v
            obtain ⟨t, ht, hlt, rfl⟩ := mem_roundEvents.mp he
            refine List.mem_map.mpr ⟨(t.name, t.currentStep + k),
              List.mem_append_left _
                (mem_roundEvents.mpr ⟨t, ht, by omega, rfl⟩), rfl⟩
          · -- a late-round step: split on where the task sits
            obtain ⟨l, hl, hel⟩ := List.mem_flatten.mp he
            obtain ⟨j, hj, rfl⟩ := List.mem_map.mp hl
            obtain ⟨x, -, rfl⟩ := List.mem_map.mp hj
            obtain ⟨t, ht, hlt, rfl⟩ := mem_roundEvents.mp hel
            rcases List.mem_append.mp ht with ht | ht
            · refine List.mem_map.mpr ⟨(t.name, t.currentStep + (k + 1)),
                List.mem_append_right _
                  (mem_roundEvents.mpr ⟨t, ht, by omega, rfl⟩), rfl⟩
            · rcases List.mem_cons.mp ht with rfl | ht
              · exact absurd rfl hne
              · refine List.mem_map.mpr ⟨(t.name, t.currentStep + k),
                  List.mem_append_left _
                    (mem_roundEvents.mpr ⟨t, ht, by omega, rfl⟩), rfl⟩
  · -- the middle segment is no longer than n − 1
    have h1 : (roundEvents qb k).length ≤ qb.length := by
      rw [roundEvents, List.length_map]
      exact List.length_filter_le _ _
    have h2 : (roundEvents qa (k + 1)).length ≤ qa.length := by
      rw [roundEvents, List.length_map]
      exact List.length_filter_le _ _
    have h3 : (qa ++ T :: qb).length = qa.length + qb.length + 1 := by
      simp [List.length_append, List.length_cons]
      omega
    rw [List.length_append]
    exact (min_eq_right (by omega)).symm

/-- The S5 scenario queue: A spawned with 3 steps, then B with 2 steps
(task ids 0 and 1 from the `NEXT_ID` counter). -/
def demoQueue : List Task :=
  [Task.new 0 "A" 3 [], Task.new 1 "B" 2 []]

/-! ## Claim C7: round-robin scheduling -/

/-- **C7 (amended).** For n spawned tasks with step counts s₁, …, sₙ,
`run()` performs exactly Σ sᵢ step invocations in total; between
consecutive steps k and k+1 of any task T, exactly
min(n−1, number of other tasks still unfinished) other tasks each
execute one step; concretely, spawning A with 3 steps then B with 2
steps yields the step-invocation sequence
(A,0), (B,0), (A,1), (B,1), (A,2) — with **B** completing before A
(B's completion trace precedes A's). -/
theorem C7_round_robin :
    (∀ q : List Task, (∀ t ∈ q, t.currentStep = 0) →
      (stepEvents (schedRun q)).length = (q.map Task.totalSteps).sum) ∧
    (∀ (qa : List Task) (T : Task) (qb : List Task) (k : Nat),
      (∀ t ∈ qa ++ T :: qb, t.currentStep = 0) →
      ((qa ++ T :: qb).map Task.name).Nodup →
      k + 1 < T.totalSteps →
      ∃ A v w,
        stepEvents (schedRun (qa ++ T :: qb)) =
          A ++ ((T.name, k) :: (v ++ ((T.name, k + 1) :: w))) ∧
        (∀ e ∈ A, e ≠ (T.name, k) ∧ e ≠ (T.name, k + 1)) ∧
        (∀ e ∈ v, e.1 ≠ T.name) ∧
        (∀ e ∈ w, e ≠ (T.name, k) ∧ e ≠ (T.name, k + 1)) ∧
        (v.map Prod.fst).Nodup ∧
        (∀ n, n ∈ v.map Prod.fst ↔
          (n ≠ T.name ∧ n ∈ (v ++ ((T.name, k + 1) :: w)).map Prod.fst)) ∧
        v.length = min ((qa ++ T :: qb).length - 1) v.length) ∧
    schedRun demoQueue =
      [.step "A" 0, .step "B" 0, .step "A" 1, .step "B" 1, .completed "B",
       .step "A" 2, .completed "A"] ∧
    completionEvents (schedRun demoQueue) = ["B", "A"] := by
  have hdemo : schedRun demoQueue =
      [.step "A" 0, .step "B" 0, .step "A" 1, .step "B" 1, .completed "B",
       .step "A" 2, .completed "A"] := by
    simp [schedRun, demoQueue, Task.new]
  refine ⟨?_, schedRun_between_steps, hdemo, by rw [hdemo]; rfl⟩
  intro q h0
  rw [stepEvents_schedRun_length]
  congr 1
  exact List.map_congr_left (fun t ht => by rw [h0 t ht, Nat.sub_zero])

/-- Counterexample to C7 as stated: in the S5 scenario the completion
order is B then A, not A then B. -/
theorem C7_round_robin_counterexample :
    completionEvents (schedRun demoQueue) = ["B", "A"] ∧
    completionEvents (schedRun demoQueue) ≠ ["A", "B"] := by
  have hdemo : schedRun demoQueue =
      [.step "A" 0, .step "B" 0, .step "A" 1, .step "B" 1, .completed "B",
       .step "A" 2, .completed "A"] := by
    simp [schedRun, demoQueue, Task.new]
  rw [hdemo]
  exact ⟨rfl, by decide⟩

/-- Witness for C7 at the S5 scenario: total steps and the interleaving
decomposition for T = A, k = 0. -/
theorem C7_round_robin_witness :
    (stepEvents (schedRun demoQueue)).length =
      (demoQueue.map Task.totalSteps).sum ∧
    (∃ A v w,
      stepEvents (schedRun
          ([] ++ (Task.new 0 "A" 3 []) :: [Task.new 1 "B" 2 []])) =
        A ++ ((("A", 0) : String × Nat) ::
          (v ++ ((("A", 1) : String × Nat) :: w))) ∧
      (∀ e ∈ A, e ≠ (("A", 0) : String × Nat) ∧
        e ≠ (("A", 1) : String × Nat)) ∧
      (∀ e ∈ v, e.1 ≠ "A") ∧
      (∀ e ∈ w, e ≠ (("A", 0) : String × Nat) ∧
        e ≠ (("A", 1) : String × Nat)) ∧
      (v.map Prod.fst).Nodup ∧
      (∀ n, n ∈ v.map Prod.fst ↔
        (n ≠ "A" ∧ n ∈ (v ++ ((("A", 1) : String × Nat) :: w)).map
          Prod.fst)) ∧
      v.length = min
        (([] ++ (Task.new 0 "A" 3 []) :: [Task.new 1 "B" 2 []]).length - 1)
        v.length) := by
  constructor
  · exact C7_round_robin.1 demoQueue (by decide)
  · exact C7_round_robin.2.1 [] (Task.new 0 "A" 3 []) [Task.new 1 "B" 2 []] 0
      (by decide) (by decide) (by decide)

/-! ## Claim C8: capability passing into step functions -/

/-- Modelled from the spec: observable invocation events of a
caps-passing scheduler run.  `Task.step_fn` is declared in
`src/task/mod.rs` as `fn(u64, &[CapId])` ("Called with (step_index,
caps)") and the spec says each task's `caps` sequence is passed by
reference into its step function on every turn; but `Scheduler::spawn`
and `Scheduler::run` in `src/task/scheduler.rs` declare
`step_fn: fn(u64)` and invoke `(task.step_fn)(task.current_step)` with
no caps argument (and call `Task::new` with the wrong arity), so the
caps-passing invocation is modelled here from the spec and the `Task`
declaration. -/
inductive CEvent : Type
  | step (name : String) (idx : Nat) (caps : List Nat)
  | completed (name : String)
  deriving DecidableEq, Repr

/-- Modelled from the spec: the run loop of `Scheduler::run` (identical
control flow to `schedRun`), with each `step_fn` invocation receiving
the task's `caps` as the spec and the `Task` declaration require. -/
def schedRunCaps : List Task → List CEvent
  | [] => []
  | t :: rest =>
      if t.currentStep < t.totalSteps then
        if t.currentStep + 1 ≥ t.totalSteps then
          .step t.name t.currentStep t.caps :: .completed t.name ::
            schedRunCaps rest
        else
          .step t.name t.currentStep t.caps ::
            schedRunCaps (rest ++
              [{ t with state := .Ready, currentStep := t.currentStep + 1 }])
      else
        .completed t.name :: schedRunCaps rest
  termination_by q => (q.map (fun t => t.totalSteps - t.currentStep)).sum + q.length
  decreasing_by
  all_goals
    simp only [List.map_append, List.map_cons, List.sum_append,
      List.sum_cons, List.map_nil, List.sum_nil, List.length_append,
      List.length_cons, List.length_nil]
    omega

/-- **C8.** Every step-function invocation of the (spec-modelled)
scheduler receives the caps list of a task of the initial queue bearing
that name — the capability list given at spawn time; requeueing a task
never alters its `caps`. -/
theorem C8_caps_passed :
    ∀ (q : List Task) (n : String) (i : Nat) (cs : List Nat),
      CEvent.step n i cs ∈ schedRunCaps q →
      ∃ t, t ∈ q ∧ t.name = n ∧ t.caps = cs := by
  intro q
  induction q using schedRunCaps.induct with
  | case1 =>
      intro n i cs h
      simp [schedRunCaps] at h
  | case2 t rest h1 h2 ih =>
      intro n i cs h
      simp only [schedRunCaps, if_pos h1, if_pos h2] at h
      rcases List.mem_cons.mp h with heq | h
      · injection heq with e1 e2 e3
        exact ⟨t, List.mem_cons_self t rest, e1.symm, e3.symm⟩
      · rcases List.mem_cons.mp h with heq | h
        · cases heq
        · obtain ⟨u, hu, hn, hc⟩ := ih n i cs h
          exact ⟨u, List.mem_cons_of_mem t hu, hn, hc⟩
  | case3 t rest h1 h2 ih =>
      intro n i cs h
      simp only [schedRunCaps, if_pos h1, if_neg h2] at h
      rcases List.mem_cons.mp h with heq | h
      · injection heq with e1 e2 e3
        exact ⟨t, List.mem_cons_self t rest, e1.symm, e3.symm⟩
      · obtain ⟨u, hu, hn, hc⟩ := ih n i cs h
        rcases List.mem_append.mp hu with hu | hu
        · exact ⟨u, List.mem_cons_of_mem t hu, hn, hc⟩
        · rw [List.mem_singleton] at hu
          subst hu
          exact ⟨t, List.mem_cons_self t rest, hn, hc⟩
  | case4 t rest h1 ih =>
      intro n i cs h
      simp only [schedRunCaps, if_neg h1] at h
      rcases List.mem_cons.mp h with heq | h
      · cases heq
      · obtain ⟨u, hu, hn, hc⟩ := ih n i cs h
        exact ⟨u, List.mem_cons_of_mem t hu, hn, hc⟩

/-- Witness for C8 at a one-task queue holding capability 5. -/
theorem C8_caps_passed_witness :
    ∃ t, t ∈ [Task.new 0 "A" 1 [5]] ∧ t.name = "A" ∧ t.caps = [5] := by
  apply C8_caps_passed [Task.new 0 "A" 1 [5]] "A" 0 [5]
  simp [schedRunCaps, Task.new]

end Exo
